import Mathlib

/-!
Shallow embedding of the sparselizard slice under verification:

* `hierarchicalformfunction::gettypenumber` and
  `hierarchicalformfunction::gettypename` (shape-function type registry),
  translated from the C++ source.  `abort()` is modelled by `none`; the
  `int`-vs-`size_t` comparison in `gettypename` is modelled by the exact
  C++ conversion of a signed 64-bit-widened value to an unsigned 64-bit
  integer.
* the nonlinear Newton loop of the laminar-flow example
  (ramping of the inlet velocity, convergence test), translated from
  `examples/nonlinear-laminarflow-step-2d/main.cpp`, with the finite-element
  solve abstracted as an oracle for the post-solve field norm.
* region algebra, constraint setting and the assembler, which are not part
  of the provided sources and are modelled from the specification.

Real arithmetic of the loop is modelled over `ℚ`; all the examined
comparisons and constants (0.1, 0.008, 0.299, 1e-10) are exactly
representable.
-/

namespace hierarchicalformfunction

/-- The scan loop of `gettypenumber`: starting at index `i`, return the
index of the first element of the list equal to `s`, or `none`. -/
def findfirst : List String → String → Nat → Option Nat
  | [], _, _ => none
  | n :: rest, s, i => if n = s then some i else findfirst rest s (i + 1)

/-- `hierarchicalformfunction::gettypenumber`, translated from the source.
The catalog `mytypenames` is a parameter (it is populated elsewhere).
`none` models the error-message-plus-`abort()` path taken when no catalog
entry matches the queried name. -/
def gettypenumber (mytypenames : List String) (fftypename : String) : Option Nat :=
  findfirst mytypenames fftypename 0

/-- The C++ conversion of a signed integer (here an `int`, hence in
`[-2^31, 2^31)`) to the unsigned 64-bit type `size_t`, as performed by the
comparison `fftypenumber >= mytypenames.size()` and by `operator[]`. -/
def touint64 (n : ℤ) : ℕ := (n % 2 ^ 64).toNat

/-- `hierarchicalformfunction::gettypename`, translated from the source.
`none` models the error-message-plus-`abort()` path taken when the
converted index is not below the catalog size; on the success path the
catalog is accessed at the converted index. -/
def gettypename (mytypenames : List String) (fftypenumber : ℤ) : Option String :=
  if mytypenames.length ≤ touint64 fftypenumber then none
  else some (mytypenames.getD (touint64 fftypenumber) "")

theorem findfirst_mem {l : List String} {s : String} (h : s ∈ l) (i : Nat) :
    ∃ j, findfirst l s i = some j := by
  induction l generalizing i with
  | nil => cases h
  | cons n rest ih =>
    by_cases hn : n = s
    · exact ⟨i, by simp [findfirst, hn]⟩
    · rcases List.mem_cons.mp h with h1 | h2
      · exact absurd h1.symm hn
      · rcases ih h2 (i + 1) with ⟨j, hj⟩
        exact ⟨j, by simp [findfirst, hn, hj]⟩

theorem findfirst_spec {l : List String} {s : String} {i j : Nat}
    (h : findfirst l s i = some j) :
    ∃ k, j = i + k ∧ k < l.length ∧ l.getD k "" = s ∧
      ∀ m, m < k → l.getD m "" ≠ s := by
  induction l generalizing i with
  | nil => simp [findfirst] at h
  | cons n rest ih =>
    by_cases hn : n = s
    · refine ⟨0, ?_, by simp, by simpa using hn, by omega⟩
      simp [findfirst, hn] at h
      omega
    · simp only [findfirst, hn, if_false] at h
      rcases ih h with ⟨k, hk1, hk2, hk3, hk4⟩
      refine ⟨k + 1, by omega, by simpa using hk2, by simpa using hk3, ?_⟩
      intro m hm
      cases m with
      | zero => simpa using hn
      | succ m => exact by simpa using hk4 m (by omega)

theorem findfirst_first {l : List String} (hnd : l.Nodup) {k : Nat}
    (hk : k < l.length) (i : Nat) :
    findfirst l (l.getD k "") i = some (i + k) := by
  induction l generalizing i k with
  | nil => simp at hk
  | cons n rest ih =>
    cases k with
    | zero => simp [findfirst]
    | succ k =>
      have hne : n ≠ rest.getD k "" := by
        intro hEq
        have hmem : rest.getD k "" ∈ rest := by
          have hlt : k < rest.length := by simpa using hk
          rw [List.getD_eq_getElem _ _ hlt]
          exact List.getElem_mem hlt
        exact (List.nodup_cons.mp hnd).1 (hEq ▸ hmem)
      have hrest : rest.Nodup := (List.nodup_cons.mp hnd).2
      have hk2 : k < rest.length := by simpa using hk
      have := ih hrest hk2 (i + 1)
      simp only [List.getD_cons_succ, findfirst, hne, if_false]
      rw [this]
      congr 1
      omega

end hierarchicalformfunction

namespace laminarflow

/-- The ramp step on the inlet velocity, translated from the source:
`if (velocity < 0.299) velocity = velocity + 0.008;`. -/
def ramp (velocity : ℚ) : ℚ :=
  if velocity < 299 / 1000 then velocity + 8 / 1000 else velocity

/-- The convergence tolerance of the while loop, `1e-10`. -/
def tol : ℚ := 1 / 10 ^ 10

/-- The mutable state of the Newton iteration in the example: the ramped
inlet velocity, the convergence measure, the current integrated field norm
`norm(v).integrate(fluid, 2)`, and the iteration counter. -/
structure SolveState where
  velocity : ℚ
  convergence : ℚ
  vnorm : ℚ
  index : ℕ
deriving DecidableEq

/-- One pass of the while-loop body, translated from the source: ramp the
velocity, record the pre-solve field norm (`measuresol`), solve, then set
`convergence = std::abs((norm_after - measuresol) / norm_after)`.  The
finite-element solve itself is external; it is abstracted by `solvenorm`,
giving the post-solve value of `norm(v).integrate(fluid, 2)` as a function
of the iteration counter and of the inlet velocity imposed this pass. -/
def loopbody (solvenorm : ℕ → ℚ → ℚ) (s : SolveState) : SolveState :=
  let vel := ramp s.velocity
  let measuresol := s.vnorm
  let normafter := solvenorm s.index vel
  { velocity := vel
    convergence := |(normafter - measuresol) / normafter|
    vnorm := normafter
    index := s.index + 1 }

/-- The while loop `while (convergence > 1e-10) { ... }`, with fuel. -/
def nlloop (solvenorm : ℕ → ℚ → ℚ) : ℕ → SolveState → SolveState
  | 0, s => s
  | fuel + 1, s =>
    if s.convergence > tol then nlloop solvenorm fuel (loopbody solvenorm s) else s

/-- A single guarded step of the while loop: `some` of the body result when
the guard `convergence > 1e-10` holds, `none` (loop exit, the converged
state) otherwise. -/
def loopstep (solvenorm : ℕ → ℚ → ℚ) (s : SolveState) : Option SolveState :=
  if s.convergence > tol then some (loopbody solvenorm s) else none

/-- The state right before the loop in the source:
`int index = 0; double convergence = 1, velocity = 0.1;`.  The field norm
of the as-yet-unsolved field is a parameter. -/
def initstate (vnorm0 : ℚ) : SolveState :=
  { velocity := 1 / 10, convergence := 1, vnorm := vnorm0, index := 0 }

/-- The velocity values reachable by the ramp from the example's start
value: `0.1 + j * 0.008` for some `j ≤ 25`. -/
def ongrid (v : ℚ) : Prop := ∃ j : ℕ, j ≤ 25 ∧ v = 1 / 10 + j * (8 / 1000)

end laminarflow

namespace specmodel

/-- Modelled from the spec: one weak-form integral term of a Formulation
(`{region, integrand-expression}`); the sources only show terms being
appended, the assembler implementation is absent.  `localcontrib` gives,
for the current field values and one mesh entity of the term's region, the
quadrature-evaluated local contribution scattered into a global slot. -/
structure Term where
  region : List ℕ
  localcontrib : (ℕ → ℚ) → ℕ → ℕ → ℚ

/-- Modelled from the spec: the assembled global system (matrix and
right-hand side flattened into slots): for every mesh entity in every
term's region, the local contribution is scatter-added; the result is a
function of the formulation and the current field values only. -/
def computesystem (F : List Term) (fields : ℕ → ℚ) : ℕ → ℚ :=
  fun slot => (F.map fun t => (t.region.map fun e => t.localcontrib fields e slot).sum).sum

/-- Modelled from the spec: the engine state seen by `assemble()` — the
current field value buffers and the global system storage it writes. -/
structure EngineState where
  fields : ℕ → ℚ
  system : ℕ → ℚ

/-- Modelled from the spec: `assemble()` rebuilds the global system from
the current field state, overwriting (not accumulating into) the system
storage; the sources only show the `solve(laminarflow)` call sites. -/
def assemble (F : List Term) (st : EngineState) : EngineState :=
  { st with system := computesystem F st.fields }

/-- Modelled from the spec: `field::setconstraint(region, value)` — the
per-entity constraint map of one field (`none` = unconstrained entity);
setting a constraint marks every entity of the region with the new value,
leaving other entities untouched.  The sources only show the call sites. -/
def setconstraint (c : ℕ → Option ℚ) (R : List ℕ) (value : ℚ) : ℕ → Option ℚ :=
  fun e => if e ∈ R then some value else c e

/-- Modelled from the spec: `regionunion(list)` — a new region whose entity
set is the set union of the operands' entity sets; operands are not
mutated.  The implementation is absent from the sources. -/
def regionunion (rs : List (Finset ℕ)) : Finset ℕ := rs.foldr (fun a b => a ∪ b) ∅

/-- Modelled from the spec: `regionexclusion(base, subtrahend)` — a new
region whose entity set is the set difference; operands are not mutated.
The implementation is absent from the sources. -/
def regionexclusion (base subtrahend : Finset ℕ) : Finset ℕ := base \ subtrahend

end specmodel

namespace hierarchicalformfunction

theorem findfirst_not_mem {l : List String} {s : String} (h : s ∉ l) (i : Nat) :
    findfirst l s i = none := by
  induction l generalizing i with
  | nil => rfl
  | cons n rest ih =>
    have hn : n ≠ s := fun hEq => h (hEq ▸ List.mem_cons_self n rest)
    have hrest : s ∉ rest := fun hmem => h (List.mem_cons_of_mem n hmem)
    simp [findfirst, hn, ih hrest]

theorem touint64_coe {i : ℕ} (h : i < 2 ^ 64) : touint64 (i : ℤ) = i := by
  unfold touint64
  omega

end hierarchicalformfunction

namespace laminarflow

theorem ramp_mono (v : ℚ) : v ≤ ramp v := by
  unfold ramp
  split <;> linarith

theorem nlloop_succ (f : ℕ → ℚ → ℚ) (k : ℕ) (s : SolveState) :
    nlloop f (k + 1) s =
      if s.convergence > tol then nlloop f k (loopbody f s) else s := rfl

theorem nlloop_velocity_mono (f : ℕ → ℚ → ℚ) (k : ℕ) (s : SolveState) :
    s.velocity ≤ (nlloop f k s).velocity := by
  induction k generalizing s with
  | zero => exact le_refl _
  | succ k ih =>
    rw [nlloop_succ]
    split
    · calc s.velocity ≤ ramp s.velocity := ramp_mono _
        _ = (loopbody f s).velocity := rfl
        _ ≤ (nlloop f k (loopbody f s)).velocity := ih _
    · exact le_refl _

theorem nlloop_succ_last (f : ℕ → ℚ → ℚ) (k : ℕ) (s : SolveState) :
    nlloop f (k + 1) s =
      if (nlloop f k s).convergence > tol then loopbody f (nlloop f k s)
      else nlloop f k s := by
  induction k generalizing s with
  | zero => rfl
  | succ k ih =>
    by_cases h : s.convergence > tol
    · rw [nlloop_succ f (k + 1) s, if_pos h, ih (loopbody f s),
        nlloop_succ f k s, if_pos h]
    · rw [nlloop_succ f (k + 1) s, if_neg h, nlloop_succ f k s, if_neg h,
        if_neg h]

theorem ongrid_ramp {v : ℚ} (h : ongrid v) : ongrid (ramp v) := by
  rcases h with ⟨j, hj, rfl⟩
  by_cases hlt : (1 / 10 + j * (8 / 1000) : ℚ) < 299 / 1000
  · have hj24 : j ≤ 24 := by
      by_contra hgt
      have h25 : j = 25 := by omega
      subst h25
      norm_num at hlt
    refine ⟨j + 1, by omega, ?_⟩
    unfold ramp
    rw [if_pos hlt]
    push_cast
    ring
  · exact ⟨j, hj, by unfold ramp; rw [if_neg hlt]⟩

theorem ongrid_le {v : ℚ} (h : ongrid v) : v ≤ 3 / 10 := by
  rcases h with ⟨j, hj, rfl⟩
  have hq : (j : ℚ) ≤ 25 := by exact_mod_cast hj
  linarith

theorem nlloop_ongrid (f : ℕ → ℚ → ℚ) (k : ℕ) (s : SolveState)
    (h : ongrid s.velocity) : ongrid (nlloop f k s).velocity := by
  induction k generalizing s with
  | zero => exact h
  | succ k ih =>
    rw [nlloop_succ]
    split
    · exact ih (loopbody f s) (ongrid_ramp h)
    · exact h

theorem initstate_ongrid (v0 : ℚ) : ongrid (initstate v0).velocity :=
  ⟨0, by omega, by norm_num [initstate]⟩

end laminarflow

open hierarchicalformfunction in
/-- C1: for every entry of the shape-function catalog the two registry
lookups are mutual inverses: for every index `i` in `[0, catalog size)`,
`gettypenumber (gettypename i) = i`, and for every name present in the
catalog `gettypename (gettypenumber name) = name`; under the catalog
invariants (unique names, size below `2^64`). -/
theorem C1_registry_roundtrip (names : List String)
    (hnd : names.Nodup) (hlen : names.length < 2 ^ 64) :
    (∀ i : ℕ, i < names.length →
      ∃ s, gettypename names (i : ℤ) = some s ∧
        gettypenumber names s = some i) ∧
    (∀ s, s ∈ names →
      ∃ i : ℕ, gettypenumber names s = some i ∧
        gettypename names (i : ℤ) = some s) := by
  constructor
  · intro i hi
    have ht : touint64 (i : ℤ) = i := touint64_coe (lt_trans hi hlen)
    refine ⟨names.getD i "", ?_, ?_⟩
    · unfold gettypename
      rw [ht, if_neg (by omega)]
    · unfold gettypenumber
      have hf := findfirst_first hnd hi 0
      simpa using hf
  · intro s hs
    obtain ⟨j, hj⟩ := findfirst_mem hs 0
    obtain ⟨k, hk0, hk1, hk2, _⟩ := findfirst_spec hj
    have hjk : j = k := by omega
    have hjlen : j < names.length := hjk ▸ hk1
    have ht : touint64 (j : ℤ) = j := touint64_coe (lt_trans hjlen hlen)
    refine ⟨j, hj, ?_⟩
    unfold gettypename
    rw [ht, if_neg (by omega), hjk, hk2]

/-- C1 witness: the round trip at a concrete three-entry catalog. -/
theorem C1_registry_roundtrip_witness :
    (["h1", "hcurl", "one"] : List String).Nodup ∧
    (["h1", "hcurl", "one"] : List String).length < 2 ^ 64 ∧
    ((∀ i : ℕ, i < (["h1", "hcurl", "one"] : List String).length →
      ∃ s, hierarchicalformfunction.gettypename ["h1", "hcurl", "one"] (i : ℤ) = some s ∧
        hierarchicalformfunction.gettypenumber ["h1", "hcurl", "one"] s = some i) ∧
    (∀ s, s ∈ (["h1", "hcurl", "one"] : List String) →
      ∃ i : ℕ, hierarchicalformfunction.gettypenumber ["h1", "hcurl", "one"] s = some i ∧
        hierarchicalformfunction.gettypename ["h1", "hcurl", "one"] (i : ℤ) = some s)) :=
  ⟨by decide, by norm_num,
    C1_registry_roundtrip ["h1", "hcurl", "one"] (by decide) (by norm_num)⟩

open hierarchicalformfunction in
/-- C2: both registry lookups fail explicitly (error message and
`abort()`, modelled by `none`) instead of returning a default value:
`gettypenumber` on a name not in the catalog, and `gettypename` on an
`int` index at least the catalog size. -/
theorem C2_registry_failure (names : List String) (name : String) (n : ℤ)
    (h1 : name ∉ names) (h2 : 0 ≤ n) (h3 : n < 2 ^ 31)
    (h4 : (names.length : ℤ) ≤ n) :
    gettypenumber names name = none ∧ gettypename names n = none := by
  constructor
  · exact findfirst_not_mem h1 0
  · unfold gettypename touint64
    rw [if_pos (by omega)]

/-- C2 witness: a missing name and an out-of-range index on a concrete
one-entry catalog. -/
theorem C2_registry_failure_witness :
    "hcurl" ∉ (["h1"] : List String) ∧ (0 : ℤ) ≤ 5 ∧ (5 : ℤ) < 2 ^ 31 ∧
    (((["h1"] : List String).length : ℤ) ≤ 5) ∧
    (hierarchicalformfunction.gettypenumber ["h1"] "hcurl" = none ∧
      hierarchicalformfunction.gettypename ["h1"] 5 = none) :=
  ⟨by decide, by norm_num, by norm_num, by norm_num,
    C2_registry_failure ["h1"] "hcurl" 5 (by decide) (by norm_num) (by norm_num)
      (by norm_num)⟩

open hierarchicalformfunction in
/-- C9: `gettypename` also rejects every negative `int` index, because the
signed index is converted to unsigned 64-bit in the bounds comparison, so
all negative values fail the check; consequently the catalog access on the
success path is always within bounds. -/
theorem C9_gettypename_negative (names : List String) (n : ℤ)
    (hlen : names.length < 2 ^ 64 - 2 ^ 31) (hrange : -2 ^ 31 ≤ n) :
    (n < 0 → gettypename names n = none) ∧
    (∀ s, gettypename names n = some s → touint64 n < names.length) := by
  constructor
  · intro hneg
    unfold gettypename touint64
    rw [if_pos (by omega)]
  · intro s hsome
    unfold gettypename at hsome
    by_cases hle : names.length ≤ touint64 n
    · rw [if_pos hle] at hsome
      cases hsome
    · omega

/-- C9 witness: a negative index on a concrete one-entry catalog. -/
theorem C9_gettypename_negative_witness :
    (["h1"] : List String).length < 2 ^ 64 - 2 ^ 31 ∧ (-2 ^ 31 : ℤ) ≤ -3 ∧
    (((-3 : ℤ) < 0 → hierarchicalformfunction.gettypename ["h1"] (-3) = none) ∧
    (∀ s, hierarchicalformfunction.gettypename ["h1"] (-3) = some s →
      hierarchicalformfunction.touint64 (-3) < (["h1"] : List String).length)) :=
  ⟨by norm_num, by norm_num,
    C9_gettypename_negative ["h1"] (-3) (by norm_num) (by norm_num)⟩

open hierarchicalformfunction in
/-- C10: whenever `gettypenumber` returns normally with result `r`, then
`r` is in `[0, catalog size)`, the catalog entry at `r` equals the queried
name, and `r` is the smallest such index (the scan stops at the first
match). -/
theorem C10_gettypenumber_first (names : List String) (name : String) (r : ℕ)
    (h : gettypenumber names name = some r) :
    r < names.length ∧ names.getD r "" = name ∧
      ∀ j, j < r → names.getD j "" ≠ name := by
  obtain ⟨k, hk0, hk1, hk2, hk3⟩ := findfirst_spec h
  have hrk : r = k := by omega
  subst hrk
  exact ⟨hk1, hk2, hk3⟩

/-- C10 witness: the first-match result on a concrete two-entry catalog. -/
theorem C10_gettypenumber_first_witness :
    hierarchicalformfunction.gettypenumber ["h1", "hcurl"] "hcurl" = some 1 ∧
    (1 < (["h1", "hcurl"] : List String).length ∧
      (["h1", "hcurl"] : List String).getD 1 "" = "hcurl" ∧
      ∀ j, j < 1 → (["h1", "hcurl"] : List String).getD j "" ≠ "hcurl") :=
  ⟨by decide, C10_gettypenumber_first ["h1", "hcurl"] "hcurl" 1 (by decide)⟩

open laminarflow in
/-- C4: the nonlinear loop ends in the converged state exactly when the
relative change `std::abs((after - before) / after)` of the integrated
field norm does not exceed the fixed tolerance `1e-10`; while the measure
exceeds the tolerance the loop performs another ramp/assemble/solve pass,
whose convergence measure is recomputed from the norm before and after the
solve. -/
theorem C4_convergence_criterion (f : ℕ → ℚ → ℚ) (s : SolveState) (k : ℕ) :
    (loopstep f s = none ↔ s.convergence ≤ 1 / 10 ^ 10) ∧
    (loopstep f s = some (loopbody f s) ↔ 1 / 10 ^ 10 < s.convergence) ∧
    (∀ t : SolveState, t.convergence ≤ 1 / 10 ^ 10 → nlloop f k t = t) ∧
    (1 / 10 ^ 10 < s.convergence →
      nlloop f (k + 1) s = nlloop f k (loopbody f s)) ∧
    (loopbody f s).convergence =
      |(f s.index (ramp s.velocity) - s.vnorm) / f s.index (ramp s.velocity)| := by
  have htol : tol = 1 / 10 ^ 10 := rfl
  refine ⟨?_, ?_, ?_, ?_, rfl⟩
  · unfold loopstep
    by_cases h : s.convergence > tol
    · rw [if_pos h]
      simp only [htol] at h
      constructor
      · intro hcontra
        cases hcontra
      · intro hle
        exact absurd h (not_lt.mpr hle)
    · rw [if_neg h]
      simp only [htol, not_lt] at h
      exact ⟨fun _ => h, fun _ => rfl⟩
  · unfold loopstep
    by_cases h : s.convergence > tol
    · rw [if_pos h]
      exact ⟨fun _ => htol ▸ h, fun _ => rfl⟩
    · rw [if_neg h]
      constructor
      · intro hcontra
        cases hcontra
      · intro hgt
        exact absurd (htol ▸ hgt) h
  · intro t ht
    induction k with
    | zero => rfl
    | succ k _ =>
      rw [nlloop_succ, if_neg (not_lt.mpr (htol ▸ ht))]
  · intro hgt
    rw [nlloop_succ, if_pos (htol ▸ hgt)]

open laminarflow in
/-- C5: in every loop pass the ramp parameter (inlet velocity) is advanced
before assembly by a bounded step: it increases by the fixed increment
`0.008` when below the threshold `0.299`, otherwise it is held; along the
example run started at `0.1` the velocity is non-decreasing across
iterations and never exceeds the target `0.3`. -/
theorem C5_ramp_bounded (f : ℕ → ℚ → ℚ) (v0 : ℚ) (k : ℕ) :
    (∀ s : SolveState, (loopbody f s).velocity = ramp s.velocity) ∧
    (∀ v : ℚ, v ≤ ramp v ∧ ramp v ≤ v + 8 / 1000 ∧
      (v < 299 / 1000 → ramp v = v + 8 / 1000) ∧
      (¬ v < 299 / 1000 → ramp v = v)) ∧
    (nlloop f k (initstate v0)).velocity ≤
      (nlloop f (k + 1) (initstate v0)).velocity ∧
    (nlloop f k (initstate v0)).velocity ≤ 3 / 10 := by
  refine ⟨fun s => rfl, ?_, ?_, ?_⟩
  · intro v
    refine ⟨ramp_mono v, ?_, ?_, ?_⟩
    · unfold ramp
      split <;> linarith
    · intro h
      unfold ramp
      rw [if_pos h]
    · intro h
      unfold ramp
      rw [if_neg h]
  · rw [nlloop_succ_last]
    split
    · calc (nlloop f k (initstate v0)).velocity
          ≤ ramp (nlloop f k (initstate v0)).velocity := ramp_mono _
        _ = (loopbody f (nlloop f k (initstate v0))).velocity := rfl
    · exact le_refl _
  · exact ongrid_le (nlloop_ongrid f k (initstate v0) (initstate_ongrid v0))

open specmodel in
/-- C3: reassembly is pure in the current state: assembling with identical
field values and an identical formulation produces an identical global
system, and a second assembly right after a first one reproduces the first
system exactly — no contribution of a previous assembly is accumulated. -/
theorem C3_assemble_pure (F : List Term) (st1 st2 : EngineState)
    (h : st1.fields = st2.fields) :
    (assemble F st1).system = (assemble F st2).system ∧
    (assemble F (assemble F st1)).system = (assemble F st1).system ∧
    (assemble F st1).fields = st1.fields := by
  refine ⟨?_, rfl, rfl⟩
  show computesystem F st1.fields = computesystem F st2.fields
  rw [h]

/-- C3 witness: double assembly of a concrete one-term formulation over two
engine states holding the same field values. -/
theorem C3_assemble_pure_witness :
    (specmodel.EngineState.mk (fun _ => 1) (fun _ => 5)).fields =
      (specmodel.EngineState.mk (fun _ => 1) (fun _ => 7)).fields ∧
    ((specmodel.assemble [specmodel.Term.mk [0, 1] (fun fl e slot => fl e * slot)]
        (specmodel.EngineState.mk (fun _ => 1) (fun _ => 5))).system =
      (specmodel.assemble [specmodel.Term.mk [0, 1] (fun fl e slot => fl e * slot)]
        (specmodel.EngineState.mk (fun _ => 1) (fun _ => 7))).system ∧
    (specmodel.assemble [specmodel.Term.mk [0, 1] (fun fl e slot => fl e * slot)]
      (specmodel.assemble [specmodel.Term.mk [0, 1] (fun fl e slot => fl e * slot)]
        (specmodel.EngineState.mk (fun _ => 1) (fun _ => 5)))).system =
      (specmodel.assemble [specmodel.Term.mk [0, 1] (fun fl e slot => fl e * slot)]
        (specmodel.EngineState.mk (fun _ => 1) (fun _ => 5))).system ∧
    (specmodel.assemble [specmodel.Term.mk [0, 1] (fun fl e slot => fl e * slot)]
      (specmodel.EngineState.mk (fun _ => 1) (fun _ => 5))).fields =
      (specmodel.EngineState.mk (fun _ => 1) (fun _ => 5)).fields) :=
  ⟨rfl, C3_assemble_pure [specmodel.Term.mk [0, 1] (fun fl e slot => fl e * slot)]
    (specmodel.EngineState.mk (fun _ => 1) (fun _ => 5))
    (specmodel.EngineState.mk (fun _ => 1) (fun _ => 7)) rfl⟩

open specmodel in
/-- C6: constraint precedence is last-write-wins per entity: after setting
a constraint on region `R1` and then on an overlapping region `R2`, every
entity of `R2` carries `R2`'s value, every entity of `R1 \ R2` carries
`R1`'s value, and re-setting a constraint on the exact same region
overwrites the prior constraint on it. -/
theorem C6_constraint_lastwrite (c : ℕ → Option ℚ) (R1 R2 : List ℕ)
    (v1 v2 : ℚ) :
    (∀ e, e ∈ R2 → setconstraint (setconstraint c R1 v1) R2 v2 e = some v2) ∧
    (∀ e, e ∈ R1 → e ∉ R2 →
      setconstraint (setconstraint c R1 v1) R2 v2 e = some v1) ∧
    (∀ (R : List ℕ) (w1 w2 : ℚ),
      setconstraint (setconstraint c R w1) R w2 = setconstraint c R w2) := by
  refine ⟨?_, ?_, ?_⟩
  · intro e he
    unfold setconstraint
    rw [if_pos he]
  · intro e he1 he2
    unfold setconstraint
    rw [if_neg he2, if_pos he1]
  · intro R w1 w2
    funext e
    unfold setconstraint
    by_cases he : e ∈ R
    · rw [if_pos he, if_pos he]
    · rw [if_neg he, if_neg he, if_neg he]

open specmodel in
/-- C7: region composition obeys set algebra: `exclusion(union(A,A), A)`
has an empty entity set, and for non-overlapping regions `A` and `B`,
`union(A, exclusion(B,A))` has the same entity set as `union(A,B)`. -/
theorem C7_region_algebra (A B : Finset ℕ) (hdisj : A ∩ B = ∅) :
    regionexclusion (regionunion [A, A]) A = ∅ ∧
    regionunion [A, regionexclusion B A] = regionunion [A, B] := by
  constructor
  · simp [regionunion, regionexclusion]
  · simp only [regionunion, regionexclusion, List.foldr_cons, List.foldr_nil,
      Finset.union_empty]
    exact Finset.union_sdiff_self_eq_union

/-- C7 witness: the two region identities on concrete disjoint singleton
regions. -/
theorem C7_region_algebra_witness :
    ({1} : Finset ℕ) ∩ ({2} : Finset ℕ) = ∅ ∧
    (specmodel.regionexclusion (specmodel.regionunion [{1}, {1}]) {1} = ∅ ∧
      specmodel.regionunion [{1}, specmodel.regionexclusion {2} {1}] =
        specmodel.regionunion [{1}, {2}]) :=
  ⟨by decide, C7_region_algebra {1} {2} (by decide)⟩
